import Mathlib

/-!
Shallow embedding of the retrieval-orchestration agent of PaperWhisperer
(src/app/services/agent_service.py and src/app/services/vectorization_service.py),
with theorems settling the frozen claims about it.

External capabilities (the LLM calls, the Milvus similarity search) are
modelled as oracles supplied through an `Env` record: each call site reads
the oracle at the index of that call, and a capability failure is an
`Except.error` carrying the exception message.  Wall-clock timestamps are
dropped from messages; no claim depends on them.
-/

namespace PaperWhisperer

/-- One retrieval result dictionary as produced by the similarity search:
`chunk_id` (may be missing / None, modelled as `Option`), `text`,
`metadata["section_title"]` and `score`.  Scores are modelled as integers;
no claim depends on fractional score values. -/
structure SearchResult where
  chunk_id : Option String
  text : String
  section_title : String
  score : Int
deriving DecidableEq, Repr

/-- Python truthiness of `result.get("chunk_id")`: `None` and `""` are falsy. -/
def truthyId (r : SearchResult) : Bool :=
  match r.chunk_id with
  | some s => s ≠ ""
  | none => false

/-- The worker of `AgentOrchestrator._deduplicate_results`: walk the list,
keep a result whose `chunk_id` is truthy and not yet in `seen`, recording
seen ids (the Python `seen_chunks` set is modelled as the list of ids added). -/
def dedupGo (seen : List String) : List SearchResult → List SearchResult
  | [] => []
  | r :: rest =>
    match r.chunk_id with
    | some cid =>
      if cid ≠ "" ∧ cid ∉ seen then
        r :: dedupGo (cid :: seen) rest
      else
        dedupGo seen rest
    | none => dedupGo seen rest

/-- `AgentOrchestrator._deduplicate_results` (agent_service.py lines 303-312). -/
def deduplicate_results (all_results : List SearchResult) : List SearchResult :=
  dedupGo [] all_results

/-- The chunk ids of a result list, truthy ones only. -/
def chunkIds (rs : List SearchResult) : List String :=
  rs.filterMap (fun r => match r.chunk_id with
    | some cid => if cid = "" then none else some cid
    | none => none)

theorem dedupGo_sublist (seen : List String) (rs : List SearchResult) :
    (dedupGo seen rs).Sublist rs := by
  induction rs generalizing seen with
  | nil => simp [dedupGo]
  | cons r rest ih =>
    cases h : r.chunk_id with
    | none => simpa [dedupGo, h] using (ih seen).cons r
    | some cid =>
      by_cases hc : cid ≠ "" ∧ cid ∉ seen
      · simpa [dedupGo, h, hc] using (ih (cid :: seen)).cons₂ r
      · simpa [dedupGo, h, hc] using (ih seen).cons r

theorem mem_dedupGo_truthy {seen : List String} {rs : List SearchResult}
    {r : SearchResult} (hmem : r ∈ dedupGo seen rs) : truthyId r = true := by
  induction rs generalizing seen with
  | nil => simp [dedupGo] at hmem
  | cons a rest ih =>
    cases h : a.chunk_id with
    | none =>
      rw [dedupGo, h] at hmem
      exact ih hmem
    | some cid =>
      simp only [dedupGo, h] at hmem
      by_cases hc : cid ≠ "" ∧ cid ∉ seen
      · rw [if_pos hc] at hmem
        rcases List.mem_cons.mp hmem with hr | hr
        · subst hr; simp [truthyId, h, hc.1]
        · exact ih hr
      · rw [if_neg hc] at hmem
        exact ih hmem

/-- The `seen_chunks` set as it stands after one pass of
`_deduplicate_results` over `rs`, starting from `seen`. -/
def seenAfter (seen : List String) : List SearchResult → List String
  | [] => seen
  | r :: rest =>
    match r.chunk_id with
    | some cid =>
      if cid ≠ "" ∧ cid ∉ seen then
        seenAfter (cid :: seen) rest
      else
        seenAfter seen rest
    | none => seenAfter seen rest

theorem dedupGo_append (seen : List String) (xs ys : List SearchResult) :
    dedupGo seen (xs ++ ys) = dedupGo seen xs ++ dedupGo (seenAfter seen xs) ys := by
  induction xs generalizing seen with
  | nil => simp [dedupGo, seenAfter]
  | cons r rest ih =>
    cases h : r.chunk_id with
    | none => simp [dedupGo, seenAfter, h, ih]
    | some cid =>
      by_cases hc : cid ≠ "" ∧ cid ∉ seen
      · simp [dedupGo, seenAfter, h, hc, ih]
      · simp [dedupGo, seenAfter, h, hc, ih]

/-- `rs` passes through `dedupGo seen` unchanged: every entry has a truthy
id, the ids are pairwise distinct, and none is already in `seen`. -/
def CleanFrom (seen : List String) (rs : List SearchResult) : Prop :=
  (∀ r ∈ rs, truthyId r = true) ∧ (chunkIds rs).Nodup ∧
    ∀ cid ∈ chunkIds rs, cid ∉ seen

theorem chunkIds_cons_truthy {r : SearchResult} {cid : String}
    (h : r.chunk_id = some cid) (hne : cid ≠ "") (rest : List SearchResult) :
    chunkIds (r :: rest) = cid :: chunkIds rest := by
  simp [chunkIds, h, hne]

theorem dedupGo_cleanFrom (seen : List String) (rs : List SearchResult) :
    CleanFrom seen (dedupGo seen rs) := by
  induction rs generalizing seen with
  | nil => exact ⟨by simp [dedupGo], by simp [dedupGo, chunkIds], by simp [dedupGo, chunkIds]⟩
  | cons r rest ih =>
    cases h : r.chunk_id with
    | none => simpa [dedupGo, h] using ih seen
    | some cid =>
      by_cases hc : cid ≠ "" ∧ cid ∉ seen
      · obtain ⟨ht, hnd, hdisj⟩ := ih (cid :: seen)
        refine ⟨?_, ?_, ?_⟩
        · intro x hx
          simp only [dedupGo, h, if_pos hc, List.mem_cons] at hx
          rcases hx with hx | hx
          · subst hx; simp [truthyId, h, hc.1]
          · exact ht x hx
        · rw [dedupGo, h]
          simp only [if_pos hc]
          rw [chunkIds_cons_truthy h hc.1]
          refine List.nodup_cons.mpr ⟨?_, hnd⟩
          intro hmem
          exact (hdisj cid hmem) (List.mem_cons_self cid seen)
        · intro c hcmem
          rw [dedupGo, h] at hcmem
          simp only [if_pos hc] at hcmem
          rw [chunkIds_cons_truthy h hc.1] at hcmem
          rcases List.mem_cons.mp hcmem with hcmem | hcmem
          · subst hcmem; exact hc.2
          · intro hcs
            exact (hdisj c hcmem) (List.mem_cons_of_mem cid hcs)
      · simpa [dedupGo, h, hc] using ih seen

theorem dedupGo_eq_self {seen : List String} {rs : List SearchResult}
    (hclean : CleanFrom seen rs) : dedupGo seen rs = rs := by
  induction rs generalizing seen with
  | nil => simp [dedupGo]
  | cons r rest ih =>
    obtain ⟨ht, hnd, hdisj⟩ := hclean
    have htr : truthyId r = true := ht r (List.mem_cons_self r rest)
    cases h : r.chunk_id with
    | none => simp [truthyId, h] at htr
    | some cid =>
      have hne : cid ≠ "" := by
        simpa [truthyId, h, decide_eq_true_eq] using htr
      have hids : chunkIds (r :: rest) = cid :: chunkIds rest :=
        chunkIds_cons_truthy h hne rest
      rw [hids] at hnd hdisj
      have hnotseen : cid ∉ seen := hdisj cid (List.mem_cons_self cid (chunkIds rest))
      simp only [dedupGo, h]
      rw [if_pos ⟨hne, hnotseen⟩]
      congr 1
      refine ih ⟨fun x hx => ht x (List.mem_cons_of_mem r hx),
        (List.nodup_cons.mp hnd).2, ?_⟩
      intro c hcmem hcs
      rcases List.mem_cons.mp hcs with hcs | hcs
      · subst hcs; exact (List.nodup_cons.mp hnd).1 hcmem
      · exact hdisj c (List.mem_cons_of_mem cid hcmem) hcs

theorem deduplicate_results_idem (rs : List SearchResult) :
    deduplicate_results (deduplicate_results rs) = deduplicate_results rs :=
  dedupGo_eq_self (dedupGo_cleanFrom [] rs)

/-- The per-round merge of `chat_stream`: re-deduplicating an already
deduplicated list extended by new results keeps the old list as a prefix. -/
theorem dedup_merge_prefix (xs ys : List SearchResult) :
    deduplicate_results xs <+:
      deduplicate_results (deduplicate_results xs ++ ys) := by
  unfold deduplicate_results
  rw [dedupGo_append]
  rw [dedupGo_eq_self (dedupGo_cleanFrom [] xs)]
  exact List.prefix_append _ _

/-- A list already in deduplicated form stays a prefix after a merge. -/
theorem deduped_merge_prefix {xs : List SearchResult}
    (hx : deduplicate_results xs = xs) (ys : List SearchResult) :
    xs <+: deduplicate_results (xs ++ ys) := by
  conv_lhs => rw [← hx]
  calc deduplicate_results xs
      <+: deduplicate_results (deduplicate_results xs ++ ys) :=
        dedup_merge_prefix xs ys
    _ = deduplicate_results (xs ++ ys) := by rw [hx]

/-- `VectorizationService.search_similar_chunks` with `section_filter = None`
(the only form the agent loop uses): the similarity-search capability output
truncated to `top_k`.  The capability output itself is supplied by the
environment. -/
def search_similar_chunks (milvusResults : List SearchResult) (top_k : Nat) :
    List SearchResult :=
  milvusResults.take top_k

/-- Descending stable sort by `score`, the Python
`all_results.sort(key=lambda x: x.get("score", 0), reverse=True)`. -/
def sortByScoreDesc (rs : List SearchResult) : List SearchResult :=
  rs.mergeSort (fun a b => b.score ≤ a.score)

/-- The inner accumulation of `search_multi_keywords`: walk one keyword's
results, adding each result whose `chunk_id` is truthy and unseen to the
running (`seen`, `all_results`) pair. -/
def addResults (seen : List String) (acc : List SearchResult) :
    List SearchResult → List String × List SearchResult
  | [] => (seen, acc)
  | r :: rest =>
    match r.chunk_id with
    | some cid =>
      if cid ≠ "" ∧ cid ∉ seen then
        addResults (cid :: seen) (acc ++ [r]) rest
      else
        addResults seen acc rest
    | none => addResults seen acc rest

/-- The keyword loop of `search_multi_keywords`: one search per keyword
(`searchFn` stands for the `search_similar_chunks` call), results folded
through the shared seen-set. -/
def multiCollect (searchFn : String → List SearchResult) :
    List String → List String → List SearchResult → List SearchResult
  | [], _, acc => acc
  | keyword :: rest, seen, acc =>
    let p := addResults seen acc (searchFn keyword)
    multiCollect searchFn rest p.1 p.2

/-- `VectorizationService.search_multi_keywords` (vectorization_service.py
lines 162-208): one search per keyword, id-deduplicated into encounter
order, then re-sorted by descending relevance score. -/
def search_multi_keywords (searchFn : String → List SearchResult)
    (keywords : List String) : List SearchResult :=
  sortByScoreDesc (multiCollect searchFn keywords [] [])

theorem addResults_eq_dedupGo (seen : List String) (acc : List SearchResult)
    (rs : List SearchResult) :
    addResults seen acc rs = (seenAfter seen rs, acc ++ dedupGo seen rs) := by
  induction rs generalizing seen acc with
  | nil => simp [addResults, seenAfter, dedupGo]
  | cons r rest ih =>
    cases h : r.chunk_id with
    | none => simp [addResults, seenAfter, dedupGo, h, ih]
    | some cid =>
      by_cases hc : cid ≠ "" ∧ cid ∉ seen
      · simp [addResults, seenAfter, dedupGo, h, hc, ih]
      · simp [addResults, seenAfter, dedupGo, h, hc, ih]

theorem multiCollect_eq_dedupGo (searchFn : String → List SearchResult)
    (keywords : List String) (seen : List String) (acc : List SearchResult) :
    multiCollect searchFn keywords seen acc =
      acc ++ dedupGo seen ((keywords.map searchFn).flatten) := by
  induction keywords generalizing seen acc with
  | nil => simp [multiCollect, dedupGo]
  | cons keyword rest ih =>
    rw [multiCollect, addResults_eq_dedupGo]
    simp only [List.map_cons, List.flatten_cons]
    rw [ih, dedupGo_append, List.append_assoc]

theorem search_multi_keywords_eq_sorted_dedup
    (searchFn : String → List SearchResult) (keywords : List String) :
    search_multi_keywords searchFn keywords =
      sortByScoreDesc (deduplicate_results ((keywords.map searchFn).flatten)) := by
  unfold search_multi_keywords deduplicate_results
  rw [multiCollect_eq_dedupGo]
  simp

theorem search_multi_keywords_sorted
    (searchFn : String → List SearchResult) (keywords : List String) :
    (search_multi_keywords searchFn keywords).Pairwise
      (fun a b => b.score ≤ a.score) := by
  unfold search_multi_keywords sortByScoreDesc
  have h := @List.sorted_mergeSort SearchResult
    (fun a b : SearchResult => decide (b.score ≤ a.score))
    (fun a b c hab hbc => by
      simp only [decide_eq_true_eq] at hab hbc ⊢
      exact le_trans hbc hab)
    (fun a b => by
      simp only [Bool.or_eq_true, decide_eq_true_eq]
      exact le_total b.score a.score)
    (multiCollect searchFn keywords [] [])
  exact h.imp (fun hab => by simpa using hab)

/-! ## Agent data model (src/app/models/schemas.py) -/

/-- `IntentCategory` (schemas.py lines 178-186). -/
inductive IntentCategory where
  | contribution
  | method
  | experiment
  | comparison
  | motivation
  | implementation
  | general
deriving DecidableEq, Repr

/-- The `.value` string of an `IntentCategory` member. -/
def IntentCategory.value : IntentCategory → String
  | .contribution => "contribution"
  | .method => "method"
  | .experiment => "experiment"
  | .comparison => "comparison"
  | .motivation => "motivation"
  | .implementation => "implementation"
  | .general => "general"

/-- `IntentCategory(category_str)`: the enum member with that value, or
`ValueError` (`none`). -/
def IntentCategory.ofString? (s : String) : Option IntentCategory :=
  if s = "contribution" then some .contribution
  else if s = "method" then some .method
  else if s = "experiment" then some .experiment
  else if s = "comparison" then some .comparison
  else if s = "motivation" then some .motivation
  else if s = "implementation" then some .implementation
  else if s = "general" then some .general
  else none

/-- `IntentAnalysisResult` (schemas.py lines 189-194). -/
structure IntentAnalysisResult where
  category : IntentCategory
  target_sections : List String
  keywords : List String
  reasoning : String
deriving DecidableEq, Repr

/-- `CompletenessEvaluation` (schemas.py lines 197-202). -/
structure CompletenessEvaluation where
  is_sufficient : Bool
  missing_info : Option String
  suggested_keywords : List String
  reasoning : String
deriving DecidableEq, Repr

/-- `ChatMessage` (schemas.py lines 128-132).  The wall-clock timestamp is
dropped: no claim depends on it. -/
structure ChatMessage where
  role : String
  content : String
deriving DecidableEq, Repr

/-- `ChatHistory` (schemas.py lines 151-156), the per-session state:
`session_id` and `created_at` are dropped, claims only concern the paper id
and the message list of the one session driving the exchange. -/
structure ChatHistory where
  paper_id : String
  messages : List ChatMessage
deriving DecidableEq, Repr

/-! ## JSON parsing contract of the two classifier components -/

/-- A parsed JSON value, the shape `json.loads` hands back on success. -/
inductive Json where
  | null
  | bool (b : Bool)
  | num (n : Int)
  | str (s : String)
  | arr (elems : List Json)
  | obj (fields : List (String × Json))

/-- `parsed.get(key)` on a JSON object. -/
def jsonGet (fields : List (String × Json)) (key : String) : Option Json :=
  (fields.find? (fun kv => kv.fst = key)).map (·.snd)

/-- A JSON array of strings, as Pydantic validates a `List[str]` field;
anything else is a validation error. -/
def strListOfJson : Json → Except Unit (List String)
  | .arr xs => xs.mapM (fun j => match j with
      | .str s => Except.ok s
      | _ => Except.error ())
  | _ => Except.error ()

/-- The result-cleaning step shared by `IntentAnalyzer.analyze` and
`CompletenessEvaluator.evaluate`: strip, then drop a surrounding code
fence (drop the first line; also the last when it is a bare fence),
then strip again. -/
def cleanLLMResult (result : String) : String :=
  let result := result.trim
  if result.startsWith "```" then
    let lines := result.splitOn "\n"
    let kept := if ((lines.getLast?.getD "").trim = "```") then
        (lines.drop 1).dropLast
      else
        lines.drop 1
    (String.intercalate "\n" kept).trim
  else
    result

/-- `IntentAnalyzer.analyze` (agent_service.py lines 68-153), from the point
the text-generation capability has answered: `llmResult` is the raw model
output and `jsonParse` stands for `json.loads` (`Except.error` =
`JSONDecodeError`).  An `Except.error` result is an exception propagating
out of `analyze` (the re-raise branch); a `JSONDecodeError` is recovered
into the default intent. -/
def analyze (jsonParse : String → Except Unit Json) (question : String)
    (llmResult : String) : Except Unit IntentAnalysisResult :=
  match jsonParse (cleanLLMResult llmResult) with
  | .error _ =>
    Except.ok
      { category := .general
        target_sections := []
        keywords := [question.take 50]
        reasoning := "解析失败，使用默认设置" }
  | .ok (.obj fields) => do
    let category ← match jsonGet fields "category" with
      | none => Except.ok IntentCategory.general
      | some (.str s) =>
        Except.ok ((IntentCategory.ofString? s.toLower).getD .general)
      | some _ => Except.error ()
    let target_sections ← match jsonGet fields "target_sections" with
      | none => Except.ok []
      | some j => strListOfJson j
    let keywords ← match jsonGet fields "keywords" with
      | none => Except.ok []
      | some j => strListOfJson j
    let reasoning ← match jsonGet fields "reasoning" with
      | none => Except.ok ""
      | some (.str s) => Except.ok s
      | some _ => Except.error ()
    Except.ok { category, target_sections, keywords, reasoning }
  | .ok _ => Except.error ()

/-- `CompletenessEvaluator.evaluate` (agent_service.py lines 186-249), from
the point the text-generation capability has answered.  The `question` and
`retrieved_content` arguments only shape the prompt, never the parsed
result; they are kept for the signature. -/
def evaluate (jsonParse : String → Except Unit Json)
    (question retrieved_content : String) (llmResult : String) :
    Except Unit CompletenessEvaluation :=
  match jsonParse (cleanLLMResult llmResult) with
  | .error _ =>
    Except.ok
      { is_sufficient := true
        missing_info := none
        suggested_keywords := []
        reasoning := "解析失败，默认信息充足" }
  | .ok (.obj fields) => do
    let is_sufficient ← match jsonGet fields "is_sufficient" with
      | none => Except.ok true
      | some (.bool b) => Except.ok b
      | some _ => Except.error ()
    let missing_info ← match jsonGet fields "missing_info" with
      | none => Except.ok none
      | some .null => Except.ok none
      | some (.str s) => Except.ok (some s)
      | some _ => Except.error ()
    let suggested_keywords ← match jsonGet fields "suggested_keywords" with
      | none => Except.ok []
      | some j => strListOfJson j
    let reasoning ← match jsonGet fields "reasoning" with
      | none => Except.ok ""
      | some (.str s) => Except.ok s
      | some _ => Except.error ()
    Except.ok { is_sufficient, missing_info, suggested_keywords, reasoning }
  | .ok _ => Except.error ()

/-! ## The orchestrator (AgentOrchestrator.chat_stream) -/

/-- One entry of the `sources` event payload (agent_service.py lines 486-491). -/
structure SourceItem where
  chunk_id : Option String
  source_section : String
  score : Int
  text_preview : String
deriving DecidableEq, Repr

/-- The `content` payload of an `AgentStreamEvent`: a text payload, the
`sources` list, or the `True` flag of the `done` event. -/
inductive EventPayload where
  | text (s : String)
  | sourceList (items : List SourceItem)
  | flag (b : Bool)
deriving DecidableEq, Repr

/-- `AgentStreamEvent` (schemas.py lines 205-208). -/
structure AgentStreamEvent where
  type : String
  content : EventPayload
deriving DecidableEq, Repr

/-- The two config values `chat_stream` reads (`app.config.settings`). -/
structure Settings where
  agent_max_retrieval_rounds : Nat
  top_k_retrieval : Nat
deriving DecidableEq, Repr

/-- The external world of one exchange.  `intentOutcome` is what
`IntentAnalyzer.analyze` returns (its internal parse-failure recovery
already folded in; `Except.error` is a capability failure propagating).
`milvusSearch k` is the similarity-search capability's answer to the k-th
search call of the exchange; `evalOutcome k` what
`CompletenessEvaluator.evaluate` returns on its k-th call.  The synthesis
stream yields `synthChunks` in order and then, when `synthError` is some
message, raises. -/
structure Env where
  sectionTitles : List String
  intentOutcome : Except String IntentAnalysisResult
  milvusSearch : Nat → Except String (List SearchResult)
  evalOutcome : Nat → Except String CompletenessEvaluation
  synthChunks : List String
  synthError : Option String

/-- The mutable state of the retrieve/evaluate loop, with instrumentation
(`searchedKeywords`, `evalCalls`, `rounds` record the calls made; the code
itself only keeps `all_results`, `current_round` and the last evaluation). -/
structure LoopSt where
  allResults : List SearchResult
  searchCount : Nat
  searchedKeywords : List String
  evalCalls : Nat
  rounds : Nat
  events : List AgentStreamEvent
  lastEval : Option CompletenessEvaluation

/-- `AgentOrchestrator._format_context` is only consumed by prompt text; its
value never shapes an event or the history, so its exact string form is not
modelled.  The search loop body (agent_service.py lines 394-400): one
similarity search per keyword, results extended onto `all_results`.  A
failing call raises, carrying the state reached so far. -/
def searchRound (env : Env) (topK : Nat) :
    List String → LoopSt → Except (LoopSt × String) LoopSt
  | [], st => Except.ok st
  | keyword :: rest, st =>
    let idx := st.searchCount
    let st := { st with
      searchedKeywords := st.searchedKeywords ++ [keyword]
      searchCount := idx + 1 }
    match env.milvusSearch idx with
    | .error e => Except.error (st, e)
    | .ok milvusOut =>
      searchRound env topK rest
        { st with allResults := st.allResults ++ search_similar_chunks milvusOut topK }

/-- One event appended. -/
def pushEvent (st : LoopSt) (e : AgentStreamEvent) : LoopSt :=
  { st with events := st.events ++ [e] }

/-- One iteration of the retrieve/evaluate loop of `chat_stream`
(agent_service.py lines 378-444), entered with the loop condition already
true: increment the round counter, pick the round's keywords (round 1 the
intent's, later rounds the previous verdict's suggestions or the
question), search each of the first 3 keywords, deduplicate the merged
evidence, break on empty evidence, otherwise evaluate completeness.
`Sum.inl` is a state in which the loop is over (empty evidence break, or a
sufficient verdict), `Sum.inr` a state from which the loop would iterate
again (insufficient verdict — the `while` condition decides whether it
actually does).

`roundKeywords` is the keyword choice (agent_service.py lines 382-386):
round 1 uses the intent's keywords, later rounds the previous verdict's
suggestions, or the raw question when those are empty. -/
def roundKeywords (question : String) (intentKeywords : List String)
    (st : LoopSt) : List String :=
  if st.rounds + 1 = 1 then intentKeywords
  else
    match st.lastEval with
    | some ev =>
      if ev.suggested_keywords = [] then [question] else ev.suggested_keywords
    | none => [question]

/-- Entering a round: increment `current_round` and emit the round's
retrieval announcement event (agent_service.py lines 379-391). -/
def startRound (question : String) (intentKeywords : List String)
    (st : LoopSt) : LoopSt :=
  let roundNum := st.rounds + 1
  let search_keywords := roundKeywords question intentKeywords st
  pushEvent { st with rounds := roundNum } ⟨"retrieval",
    .text ("第 " ++ toString roundNum ++ " 轮检索 (关键词: "
      ++ String.intercalate ", " search_keywords ++ ")")⟩

/-- After a round's searches (agent_service.py lines 402-444): deduplicate
the merged evidence and announce the count; break on empty evidence;
otherwise call the completeness evaluator and classify the round's exit by
its verdict. -/
def evalPhase (env : Env) (maxRounds roundNum : Nat) (st : LoopSt) :
    Except (LoopSt × String) (LoopSt ⊕ LoopSt) :=
  let st := { st with allResults := deduplicate_results st.allResults }
  let st := pushEvent st ⟨"retrieval",
    .text ("检索到 " ++ toString st.allResults.length ++ " 个相关片段")⟩
  if st.allResults = [] then
    Except.ok (.inl (pushEvent st ⟨"evaluation", .text "未检索到相关内容"⟩))
  else
    let st := pushEvent st ⟨"thinking", .text "正在评估信息完备性..."⟩
    match env.evalOutcome st.evalCalls with
    | .error e => Except.error (st, e)
    | .ok ev =>
      let st := { st with evalCalls := st.evalCalls + 1, lastEval := some ev }
      if ev.is_sufficient then
        Except.ok (.inl (pushEvent st ⟨"evaluation",
          .text ("信息评估: 信息充足，开始生成回答\n推理: " ++ ev.reasoning)⟩))
      else
        Except.ok (.inr (pushEvent st ⟨"evaluation",
          .text (if roundNum < maxRounds then
              "信息评估: 需要补充信息\n缺失: "
                ++ (ev.missing_info.getD "None") ++ "\n建议关键词: "
                ++ String.intercalate ", " ev.suggested_keywords
            else
              "信息评估: 已达最大检索轮次，基于现有信息回答\n缺失: "
                ++ (ev.missing_info.getD "None"))⟩))

def loopBody (env : Env) (maxRounds topK : Nat) (question : String)
    (intentKeywords : List String) (st : LoopSt) :
    Except (LoopSt × String) (LoopSt ⊕ LoopSt) :=
  match searchRound env topK ((roundKeywords question intentKeywords st).take 3)
      (startRound question intentKeywords st) with
  | .error p => Except.error p
  | .ok stB => evalPhase env maxRounds (st.rounds + 1) stB

/-- The `while current_round < max_rounds and not is_sufficient` loop
(agent_service.py line 378), on fuel `maxRounds - current_round`: zero fuel
means the round cap is reached, otherwise run one `loopBody` iteration and
recurse while it reports an insufficient verdict. -/
def runLoop (env : Env) (maxRounds topK : Nat) (question : String)
    (intentKeywords : List String) :
    Nat → LoopSt → Except (LoopSt × String) LoopSt
  | 0, st => Except.ok st
  | fuel + 1, st =>
    match loopBody env maxRounds topK question intentKeywords st with
    | .error p => Except.error p
    | .ok (.inl st) => Except.ok st
    | .ok (.inr st) => runLoop env maxRounds topK question intentKeywords fuel st

/-- The canned no-evidence answer (agent_service.py line 448). -/
def cannedAnswer : String :=
  "抱歉，我在论文中没有找到与您问题相关的内容。您可以尝试换一个问法或问其他问题。"

/-- One `sources` payload entry (agent_service.py lines 486-491). -/
def mkSourceItem (r : SearchResult) : SourceItem :=
  { chunk_id := r.chunk_id
    source_section := r.section_title
    score := r.score
    text_preview := r.text.take 100 ++ "..." }

/-- The history commit (agent_service.py lines 494-502): append the user
then the assistant message, then keep only the most recent 20. -/
def commitMessages (messages : List ChatMessage)
    (userMsg assistantMsg : ChatMessage) : List ChatMessage :=
  let msgs := messages ++ [userMsg, assistantMsg]
  if msgs.length > 20 then msgs.drop (msgs.length - 20) else msgs

/-- The second thinking event's text (agent_service.py line 370). -/
def intentSummary (intent : IntentAnalysisResult) : String :=
  let joined := String.intercalate ", " intent.target_sections
  "意图识别完成:\n- 类别: " ++ intent.category.value
    ++ "\n- 目标章节: " ++ (if joined = "" then "全文" else joined)
    ++ "\n- 关键词: " ++ String.intercalate ", " intent.keywords
    ++ "\n- 推理: " ++ intent.reasoning

/-- The two thinking events of the intent phase (agent_service.py lines
356 and 368-371). -/
def intentEvents (intent : IntentAnalysisResult) : List AgentStreamEvent :=
  [⟨"thinking", .text "正在分析问题意图..."⟩,
   ⟨"thinking", .text (intentSummary intent)⟩]

/-- The loop state `chat_stream` enters the retrieve/evaluate loop with:
no evidence, no calls made yet, the intent-phase events already emitted. -/
def initialLoopState (events : List AgentStreamEvent) : LoopSt :=
  { allResults := []
    searchCount := 0
    searchedKeywords := []
    evalCalls := 0
    rounds := 0
    events := events
    lastEval := none }

/-- What one exchange produced: the emitted events in order, the session's
message history after the exchange, and instrumentation (the evidence set
at synthesis, the searched keywords, the number of evaluator calls, the
number of rounds entered, whether the streaming synthesis model call was
made). -/
structure ChatOutcome where
  events : List AgentStreamEvent
  messages : List ChatMessage
  evidence : List SearchResult
  searchedKeywords : List String
  evalCalls : Nat
  rounds : Nat
  synthCalled : Bool

/-- Steps 4-5 of `chat_stream` (agent_service.py lines 446-504) for a loop
that ended without an exception: synthesize (canned answer on empty
evidence, else the streamed model output; a mid-stream failure becomes the
error terminal without a commit), then the sources event, the commit and
the done event. -/
def finishExchange (env : Env) (question : String)
    (sessionMessages : List ChatMessage) (st : LoopSt) : ChatOutcome :=
  if st.allResults = [] then
    let answer := cannedAnswer
    let events := st.events ++ [⟨"content", .text answer⟩]
    let events := events
      ++ [⟨"sources", .sourceList ((st.allResults.take 5).map mkSourceItem)⟩]
    { events := events ++ [⟨"done", .flag true⟩]
      messages := commitMessages sessionMessages ⟨"user", question⟩ ⟨"assistant", answer⟩
      evidence := st.allResults
      searchedKeywords := st.searchedKeywords
      evalCalls := st.evalCalls
      rounds := st.rounds
      synthCalled := false }
  else
    let contentEvents := env.synthChunks.map
      (fun c => AgentStreamEvent.mk "content" (.text c))
    match env.synthError with
    | some e =>
      { events := st.events ++ contentEvents ++ [⟨"error", .text e⟩]
        messages := sessionMessages
        evidence := st.allResults
        searchedKeywords := st.searchedKeywords
        evalCalls := st.evalCalls
        rounds := st.rounds
        synthCalled := true }
    | none =>
      let answer := String.join env.synthChunks
      let events := st.events ++ contentEvents
        ++ [⟨"sources", .sourceList ((st.allResults.take 5).map mkSourceItem)⟩]
      { events := events ++ [⟨"done", .flag true⟩]
        messages := commitMessages sessionMessages ⟨"user", question⟩ ⟨"assistant", answer⟩
        evidence := st.allResults
        searchedKeywords := st.searchedKeywords
        evalCalls := st.evalCalls
        rounds := st.rounds
        synthCalled := true }

/-- `AgentOrchestrator.chat_stream` (agent_service.py lines 326-508) as a
function of the environment.  `session` is what `get_session` returned for
the request's session id (`none` = not found; a missing session id leads to
`create_session`, i.e. a fresh empty session with the right paper id, which
the caller models by passing that session). -/
def chat_stream (env : Env) (cfg : Settings) (paper_id question : String)
    (session : Option ChatHistory) : ChatOutcome :=
  match session with
  | none =>
    { events := [⟨"error", .text "会话无效或论文不匹配"⟩]
      messages := []
      evidence := []
      searchedKeywords := []
      evalCalls := 0
      rounds := 0
      synthCalled := false }
  | some session =>
    if session.paper_id ≠ paper_id then
      { events := [⟨"error", .text "会话无效或论文不匹配"⟩]
        messages := session.messages
        evidence := []
        searchedKeywords := []
        evalCalls := 0
        rounds := 0
        synthCalled := false }
    else
      let events0 : List AgentStreamEvent := [⟨"thinking", .text "正在分析问题意图..."⟩]
      match env.intentOutcome with
      | .error e =>
        { events := events0 ++ [⟨"error", .text e⟩]
          messages := session.messages
          evidence := []
          searchedKeywords := []
          evalCalls := 0
          rounds := 0
          synthCalled := false }
      | .ok intent =>
        match runLoop env cfg.agent_max_retrieval_rounds cfg.top_k_retrieval
            question intent.keywords cfg.agent_max_retrieval_rounds
            (initialLoopState (intentEvents intent)) with
        | .error (st, e) =>
          { events := st.events ++ [⟨"error", .text e⟩]
            messages := session.messages
            evidence := st.allResults
            searchedKeywords := st.searchedKeywords
            evalCalls := st.evalCalls
            rounds := st.rounds
            synthCalled := false }
        | .ok st => finishExchange env question session.messages st

/-! ## Loop invariants -/

/-- The state a loop computation reached, whether it returned or raised. -/
def stateOf : Except (LoopSt × String) LoopSt → LoopSt
  | .ok st => st
  | .error p => p.1

/-- The event types the retrieve/evaluate loop emits: never a terminal
(`done`/`error`), never `content`, never `sources`. -/
def nonTerminalEvent (e : AgentStreamEvent) : Bool :=
  e.type == "thinking" || e.type == "retrieval" || e.type == "evaluation"

theorem searchRound_state (env : Env) (topK : Nat) (kws : List String)
    (st : LoopSt) :
    (stateOf (searchRound env topK kws st)).events = st.events ∧
    (stateOf (searchRound env topK kws st)).evalCalls = st.evalCalls ∧
    (stateOf (searchRound env topK kws st)).rounds = st.rounds ∧
    (stateOf (searchRound env topK kws st)).lastEval = st.lastEval ∧
    (stateOf (searchRound env topK kws st)).searchedKeywords.length ≤
      st.searchedKeywords.length + kws.length ∧
    ∃ added, (stateOf (searchRound env topK kws st)).allResults =
      st.allResults ++ added := by
  induction kws generalizing st with
  | nil =>
    refine ⟨rfl, rfl, rfl, rfl, by simp [searchRound, stateOf], ⟨[], by simp [searchRound, stateOf]⟩⟩
  | cons kw rest ih =>
    rw [searchRound]
    cases h : env.milvusSearch st.searchCount with
    | error e =>
      simp only [h]
      refine ⟨rfl, rfl, rfl, rfl, ?_, ⟨[], by simp [stateOf]⟩⟩
      show (st.searchedKeywords ++ [kw]).length ≤
        st.searchedKeywords.length + (kw :: rest).length
      simp only [List.length_append, List.length_cons, List.length_nil]
      omega
    | ok milvusOut =>
      simp only [h]
      obtain ⟨he, hec, hr, hle, hsk, added, ha⟩ := ih
        { st with
          searchedKeywords := st.searchedKeywords ++ [kw]
          searchCount := st.searchCount + 1
          allResults := st.allResults ++ search_similar_chunks milvusOut topK }
      refine ⟨he, hec, hr, hle, ?_, ⟨search_similar_chunks milvusOut topK ++ added, ?_⟩⟩
      · refine le_trans hsk ?_
        show (st.searchedKeywords ++ [kw]).length + rest.length ≤
          st.searchedKeywords.length + (kw :: rest).length
        simp only [List.length_append, List.length_cons, List.length_nil]
        omega
      · rw [ha]
        show st.allResults ++ search_similar_chunks milvusOut topK ++ added =
          st.allResults ++ (search_similar_chunks milvusOut topK ++ added)
        rw [List.append_assoc]

/-- What one loop iteration does to the state, common to all its exits. -/
structure RoundRel (st stq : LoopSt) : Prop where
  events_extend : ∃ extra, stq.events = st.events ++ extra ∧
    extra.all nonTerminalEvent = true
  results_isPrefix : st.allResults <+: stq.allResults
  rounds_eq : stq.rounds = st.rounds + 1
  evalCalls_ge : st.evalCalls ≤ stq.evalCalls
  evalCalls_le : stq.evalCalls ≤ st.evalCalls + 1
  searched_le : stq.searchedKeywords.length ≤ st.searchedKeywords.length + 3


theorem startRound_state (question : String) (intentKeywords : List String)
    (st : LoopSt) :
    (startRound question intentKeywords st).allResults = st.allResults ∧
    (startRound question intentKeywords st).searchCount = st.searchCount ∧
    (startRound question intentKeywords st).searchedKeywords = st.searchedKeywords ∧
    (startRound question intentKeywords st).evalCalls = st.evalCalls ∧
    (startRound question intentKeywords st).rounds = st.rounds + 1 ∧
    ∃ e0, (startRound question intentKeywords st).events = st.events ++ [e0] ∧
      nonTerminalEvent e0 = true :=
  ⟨rfl, rfl, rfl, rfl, rfl, ⟨_, rfl, rfl⟩⟩

theorem events_extend_refl (a : List AgentStreamEvent) :
    ∃ z, a = a ++ z ∧ z.all nonTerminalEvent = true :=
  ⟨[], by simp, rfl⟩

theorem events_extend_trans {a b c : List AgentStreamEvent}
    (h1 : ∃ x, b = a ++ x ∧ x.all nonTerminalEvent = true)
    (h2 : ∃ y, c = b ++ y ∧ y.all nonTerminalEvent = true) :
    ∃ z, c = a ++ z ∧ z.all nonTerminalEvent = true := by
  obtain ⟨x, hbx, hx⟩ := h1
  obtain ⟨y, hcy, hy⟩ := h2
  exact ⟨x ++ y, by rw [hcy, hbx, List.append_assoc], by simp [List.all_append, hx, hy]⟩

theorem events_extend_push (st : LoopSt) {e : AgentStreamEvent}
    (he : nonTerminalEvent e = true) :
    ∃ z, (pushEvent st e).events = st.events ++ z ∧ z.all nonTerminalEvent = true :=
  ⟨[e], rfl, by simp [he]⟩

theorem evalPhase_spec (env : Env) (maxRounds roundNum : Nat) (st : LoopSt) :
    (∀ p, evalPhase env maxRounds roundNum st = .error p →
      p.1.allResults = deduplicate_results st.allResults ∧
      p.1.evalCalls = st.evalCalls ∧
      p.1.rounds = st.rounds ∧
      p.1.searchedKeywords = st.searchedKeywords ∧
      ∃ extra, p.1.events = st.events ++ extra ∧ extra.all nonTerminalEvent = true) ∧
    (∀ stq, evalPhase env maxRounds roundNum st = .ok (.inl stq) →
      stq.allResults = deduplicate_results st.allResults ∧
      stq.rounds = st.rounds ∧
      stq.searchedKeywords = st.searchedKeywords ∧
      (∃ extra, stq.events = st.events ++ extra ∧ extra.all nonTerminalEvent = true) ∧
      ((stq.allResults = [] ∧ stq.evalCalls = st.evalCalls) ∨
       (stq.allResults ≠ [] ∧ stq.evalCalls = st.evalCalls + 1 ∧
        ∃ ev, env.evalOutcome st.evalCalls = .ok ev ∧ ev.is_sufficient = true))) ∧
    (∀ stq, evalPhase env maxRounds roundNum st = .ok (.inr stq) →
      stq.allResults = deduplicate_results st.allResults ∧
      stq.rounds = st.rounds ∧
      stq.searchedKeywords = st.searchedKeywords ∧
      (∃ extra, stq.events = st.events ++ extra ∧ extra.all nonTerminalEvent = true) ∧
      stq.allResults ≠ [] ∧ stq.evalCalls = st.evalCalls + 1 ∧
      ∃ ev, env.evalOutcome st.evalCalls = .ok ev ∧ ev.is_sufficient = false) := by
  by_cases hemp : deduplicate_results st.allResults = []
  · refine ⟨?_, ?_, ?_⟩
    · intro p hp
      unfold evalPhase at hp
      simp only [pushEvent] at hp
      rw [if_pos hemp] at hp
      cases hp
    · intro stq hp
      unfold evalPhase at hp
      simp only [pushEvent] at hp
      rw [if_pos hemp] at hp
      cases hp
      refine ⟨rfl, rfl, rfl, ?_, Or.inl ⟨hemp, rfl⟩⟩
      exact ⟨_, by rw [List.append_assoc], by simp [nonTerminalEvent]⟩
    · intro stq hp
      unfold evalPhase at hp
      simp only [pushEvent] at hp
      rw [if_pos hemp] at hp
      cases hp
  · cases hev : env.evalOutcome st.evalCalls with
    | error e =>
      refine ⟨?_, ?_, ?_⟩
      · intro p hp
        unfold evalPhase at hp
        simp only [pushEvent] at hp
        rw [if_neg hemp] at hp
        simp only [hev] at hp
        cases hp
        refine ⟨rfl, rfl, rfl, rfl, ?_⟩
        exact ⟨_, by rw [List.append_assoc], by simp [nonTerminalEvent]⟩
      · intro stq hp
        unfold evalPhase at hp
        simp only [pushEvent] at hp
        rw [if_neg hemp] at hp
        simp only [hev] at hp
        cases hp
      · intro stq hp
        unfold evalPhase at hp
        simp only [pushEvent] at hp
        rw [if_neg hemp] at hp
        simp only [hev] at hp
        cases hp
    | ok ev =>
      cases hsuf : ev.is_sufficient with
      | true =>
        refine ⟨?_, ?_, ?_⟩
        · intro p hp
          unfold evalPhase at hp
          simp only [pushEvent] at hp
          rw [if_neg hemp] at hp
          simp only [hev, hsuf] at hp
          rw [if_pos trivial] at hp
          cases hp
        · intro stq hp
          unfold evalPhase at hp
          simp only [pushEvent] at hp
          rw [if_neg hemp] at hp
          simp only [hev, hsuf] at hp
          rw [if_pos trivial] at hp
          cases hp
          refine ⟨rfl, rfl, rfl, ?_, Or.inr ⟨hemp, rfl, ev, rfl, hsuf⟩⟩
          exact ⟨_, by rw [List.append_assoc, List.append_assoc], by simp [nonTerminalEvent]⟩
        · intro stq hp
          unfold evalPhase at hp
          simp only [pushEvent] at hp
          rw [if_neg hemp] at hp
          simp only [hev, hsuf] at hp
          rw [if_pos trivial] at hp
          cases hp
      | false =>
        refine ⟨?_, ?_, ?_⟩
        · intro p hp
          unfold evalPhase at hp
          simp only [pushEvent] at hp
          rw [if_neg hemp] at hp
          simp only [hev, hsuf] at hp
          rw [if_neg Bool.false_ne_true] at hp
          cases hp
        · intro stq hp
          unfold evalPhase at hp
          simp only [pushEvent] at hp
          rw [if_neg hemp] at hp
          simp only [hev, hsuf] at hp
          rw [if_neg Bool.false_ne_true] at hp
          cases hp
        · intro stq hp
          unfold evalPhase at hp
          simp only [pushEvent] at hp
          rw [if_neg hemp] at hp
          simp only [hev, hsuf] at hp
          rw [if_neg Bool.false_ne_true] at hp
          cases hp
          refine ⟨rfl, rfl, rfl, ?_, hemp, rfl, ev, rfl, hsuf⟩
          exact ⟨_, by rw [List.append_assoc, List.append_assoc], by simp [nonTerminalEvent]⟩

theorem loopBody_spec (env : Env) (maxRounds topK : Nat) (question : String)
    (intentKeywords : List String) (st : LoopSt)
    (hdedup : deduplicate_results st.allResults = st.allResults) :
    (∀ p, loopBody env maxRounds topK question intentKeywords st = .error p →
      RoundRel st p.1 ∧ p.1.evalCalls = st.evalCalls) ∧
    (∀ stq, loopBody env maxRounds topK question intentKeywords st = .ok (.inl stq) →
      RoundRel st stq ∧ deduplicate_results stq.allResults = stq.allResults ∧
      ((stq.allResults = [] ∧ stq.evalCalls = st.evalCalls) ∨
       (stq.allResults ≠ [] ∧ stq.evalCalls = st.evalCalls + 1))) ∧
    (∀ stq, loopBody env maxRounds topK question intentKeywords st = .ok (.inr stq) →
      RoundRel st stq ∧ deduplicate_results stq.allResults = stq.allResults ∧
      stq.allResults ≠ [] ∧ stq.evalCalls = st.evalCalls + 1 ∧
      ∃ ev, env.evalOutcome st.evalCalls = .ok ev ∧ ev.is_sufficient = false) := by
  obtain ⟨hS1a, hS1c, hS1k, hS1e, hS1r, e0, hS1ev, he0⟩ :=
    startRound_state question intentKeywords st
  cases hsr : searchRound env topK
      ((roundKeywords question intentKeywords st).take 3)
      (startRound question intentKeywords st) with
  | error p0 =>
    have hsrs := searchRound_state env topK
      ((roundKeywords question intentKeywords st).take 3)
      (startRound question intentKeywords st)
    rw [hsr] at hsrs
    simp only [stateOf] at hsrs
    obtain ⟨hev, hec, hr, -, hsk, added, ha⟩ := hsrs
    have hrel : RoundRel st p0.1 := by
      refine ⟨⟨[e0], by rw [hev, hS1ev], by simp [he0]⟩, ?_, ?_, ?_, ?_, ?_⟩
      · rw [ha, hS1a]; exact List.prefix_append _ _
      · rw [hr, hS1r]
      · rw [hec, hS1e]
      · rw [hec, hS1e]; omega
      · rw [hS1k] at hsk
        have h3 := List.length_take_le 3 (roundKeywords question intentKeywords st)
        omega
    refine ⟨?_, ?_, ?_⟩
    · intro p hp
      unfold loopBody at hp
      simp only [hsr] at hp
      cases hp
      exact ⟨hrel, by rw [hec, hS1e]⟩
    · intro stq hp
      unfold loopBody at hp
      simp only [hsr] at hp
      cases hp
    · intro stq hp
      unfold loopBody at hp
      simp only [hsr] at hp
      cases hp
  | ok stB =>
    have hsrs := searchRound_state env topK
      ((roundKeywords question intentKeywords st).take 3)
      (startRound question intentKeywords st)
    rw [hsr] at hsrs
    simp only [stateOf] at hsrs
    obtain ⟨hBev, hBec, hBr, -, hBsk, added, hBa⟩ := hsrs
    obtain ⟨hEerr, hEinl, hEinr⟩ := evalPhase_spec env maxRounds (st.rounds + 1) stB
    have hBa2 : stB.allResults = st.allResults ++ added := by rw [hBa, hS1a]
    have hBev2 : stB.events = st.events ++ [e0] := by rw [hBev, hS1ev]
    have hBec2 : stB.evalCalls = st.evalCalls := by rw [hBec, hS1e]
    have hBr2 : stB.rounds = st.rounds + 1 := by rw [hBr, hS1r]
    have hBsk2 : stB.searchedKeywords.length ≤ st.searchedKeywords.length + 3 := by
      rw [hS1k] at hBsk
      have h3 := List.length_take_le 3 (roundKeywords question intentKeywords st)
      omega
    refine ⟨?_, ?_, ?_⟩
    · intro p hp
      unfold loopBody at hp
      simp only [hsr] at hp
      obtain ⟨ha, hc, hr, hk, extra, hev2, hex⟩ := hEerr p hp
      refine ⟨⟨⟨e0 :: extra, ?_, ?_⟩, ?_, ?_, ?_, ?_, ?_⟩, ?_⟩
      · rw [hev2, hBev2]; simp
      · simp [he0, hex]
      · rw [ha, hBa2]; exact deduped_merge_prefix hdedup added
      · rw [hr, hBr2]
      · rw [hc, hBec2]
      · rw [hc, hBec2]; omega
      · rw [hk]; exact hBsk2
      · rw [hc, hBec2]
    · intro stq hp
      unfold loopBody at hp
      simp only [hsr] at hp
      obtain ⟨ha, hr, hk, ⟨extra, hev2, hex⟩, hdisj⟩ := hEinl stq hp
      have hdisj2 : (stq.allResults = [] ∧ stq.evalCalls = st.evalCalls) ∨
          (stq.allResults ≠ [] ∧ stq.evalCalls = st.evalCalls + 1) := by
        rcases hdisj with ⟨h1, hq⟩ | ⟨h1, hq, -⟩
        · exact Or.inl ⟨h1, by rw [hq, hBec2]⟩
        · exact Or.inr ⟨h1, by rw [hq, hBec2]⟩
      refine ⟨⟨⟨e0 :: extra, ?_, ?_⟩, ?_, ?_, ?_, ?_, ?_⟩, ?_, hdisj2⟩
      · rw [hev2, hBev2]; simp
      · simp [he0, hex]
      · rw [ha, hBa2]; exact deduped_merge_prefix hdedup added
      · rw [hr, hBr2]
      · rcases hdisj2 with ⟨-, hq⟩ | ⟨-, hq⟩ <;> omega
      · rcases hdisj2 with ⟨-, hq⟩ | ⟨-, hq⟩ <;> omega
      · rw [hk]; exact hBsk2
      · rw [ha]; exact deduplicate_results_idem _
    · intro stq hp
      unfold loopBody at hp
      simp only [hsr] at hp
      obtain ⟨ha, hr, hk, ⟨extra, hev2, hex⟩, hne, hq, ev, hevo, hsuf⟩ := hEinr stq hp
      refine ⟨⟨⟨e0 :: extra, ?_, ?_⟩, ?_, ?_, ?_, ?_, ?_⟩, ?_, hne, ?_, ev, ?_, hsuf⟩
      · rw [hev2, hBev2]; simp
      · simp [he0, hex]
      · rw [ha, hBa2]; exact deduped_merge_prefix hdedup added
      · rw [hr, hBr2]
      · rw [hq, hBec2]; omega
      · rw [hq, hBec2]
      · rw [hk]; exact hBsk2
      · rw [ha]; exact deduplicate_results_idem _
      · rw [hq, hBec2]
      · rw [← hBec2]; exact hevo

/-- What a whole run of the loop does to the state, whether it returned or
raised: events only grow by non-terminal events, evidence only grows, at
most `fuel` further rounds, at most one evaluator call per round, at most
3 searches per round, and every evaluator call that was followed by
another round returned an insufficient verdict. -/
structure LoopRunRel (env : Env) (fuel : Nat) (st stq : LoopSt) : Prop where
  events_extend : ∃ extra, stq.events = st.events ++ extra ∧
    extra.all nonTerminalEvent = true
  results_isPrefix : st.allResults <+: stq.allResults
  rounds_ge : st.rounds ≤ stq.rounds
  rounds_le : stq.rounds ≤ st.rounds + fuel
  evalCalls_ge : st.evalCalls ≤ stq.evalCalls
  evalCalls_rounds : stq.evalCalls + st.rounds ≤ st.evalCalls + stq.rounds
  searched_rounds : stq.searchedKeywords.length + 3 * st.rounds ≤
    st.searchedKeywords.length + 3 * stq.rounds
  eval_insufficient : ∀ k, st.evalCalls ≤ k → k + 1 < stq.evalCalls →
    ∃ ev, env.evalOutcome k = .ok ev ∧ ev.is_sufficient = false

theorem runLoop_spec (env : Env) (maxRounds topK : Nat) (question : String)
    (intentKeywords : List String) :
    ∀ (fuel : Nat) (st : LoopSt),
    deduplicate_results st.allResults = st.allResults →
    LoopRunRel env fuel st
      (stateOf (runLoop env maxRounds topK question intentKeywords fuel st)) ∧
    (∀ stq, runLoop env maxRounds topK question intentKeywords fuel st = .ok stq →
      deduplicate_results stq.allResults = stq.allResults) := by
  intro fuel
  induction fuel with
  | zero =>
    intro st hdedup
    simp only [runLoop, stateOf]
    refine ⟨⟨⟨[], by simp, rfl⟩, List.prefix_rfl, le_refl _, by omega, le_refl _,
      by omega, by omega, fun k hk hlt => absurd hlt (by omega)⟩, ?_⟩
    intro stq hq
    cases hq
    exact hdedup
  | succ fuel ih =>
    intro st hdedup
    obtain ⟨hBerr, hBinl, hBinr⟩ :=
      loopBody_spec env maxRounds topK question intentKeywords st hdedup
    cases hlb : loopBody env maxRounds topK question intentKeywords st with
    | error p =>
      have hR : runLoop env maxRounds topK question intentKeywords (fuel + 1) st =
          .error p := by
        rw [runLoop, hlb]
      obtain ⟨hrel, hec⟩ := hBerr p hlb
      obtain ⟨hev, hpre, hre, hge, hle, hsk⟩ := hrel
      rw [hR]
      simp only [stateOf]
      refine ⟨⟨hev, hpre, by omega, by omega, hge, by omega, by omega, ?_⟩, ?_⟩
      · intro k hk hlt
        rw [hec] at hlt
        omega
      · intro stq hq
        cases hq
    | ok s =>
      cases s with
      | inl stq =>
        have hR : runLoop env maxRounds topK question intentKeywords (fuel + 1) st =
            .ok stq := by
          rw [runLoop, hlb]
        obtain ⟨hrel, hdedupq, hdisj⟩ := hBinl stq hlb
        obtain ⟨hev, hpre, hre, hge, hle, hsk⟩ := hrel
        rw [hR]
        simp only [stateOf]
        refine ⟨⟨hev, hpre, by omega, by omega, hge, by omega, by omega, ?_⟩, ?_⟩
        · intro k hk hlt
          omega
        · intro stq2 hq
          cases hq
          exact hdedupq
      | inr stq =>
        have hR : runLoop env maxRounds topK question intentKeywords (fuel + 1) st =
            runLoop env maxRounds topK question intentKeywords fuel stq := by
          rw [runLoop, hlb]
        obtain ⟨hrel, hdedupq, hne, hq1, ev, hevo, hsuf⟩ := hBinr stq hlb
        obtain ⟨hev, hpre, hre, hge, hle, hsk⟩ := hrel
        obtain ⟨hrel2, hokd⟩ := ih stq hdedupq
        obtain ⟨hev2, hpre2, hrge2, hrle2, hecge2, hecr2, hskr2, hins2⟩ := hrel2
        rw [hR]
        refine ⟨⟨events_extend_trans hev hev2, hpre.trans hpre2, by omega, by omega,
          by omega, by omega, by omega, ?_⟩, ?_⟩
        · intro k hk hlt
          by_cases hcase : k < stq.evalCalls
          · have hkeq : k = st.evalCalls := by omega
            exact ⟨ev, by rw [hkeq]; exact hevo, hsuf⟩
          · exact hins2 k (by omega) hlt
        · intro stq2 hq
          exact hokd stq2 hq

/-- An exchange whose loop returned with an empty evidence set made no
completeness-evaluation call and stopped within one round of where it
started: the empty-evidence break fires before the evaluator. -/
theorem runLoop_empty_no_eval (env : Env) (maxRounds topK : Nat)
    (question : String) (intentKeywords : List String) :
    ∀ (fuel : Nat) (st : LoopSt),
    deduplicate_results st.allResults = st.allResults →
    ∀ stq, runLoop env maxRounds topK question intentKeywords fuel st = .ok stq →
    stq.allResults = [] →
    stq.evalCalls = st.evalCalls ∧ stq.rounds ≤ st.rounds + 1 := by
  intro fuel
  induction fuel with
  | zero =>
    intro st hdedup stq hq hstq
    simp only [runLoop] at hq
    cases hq
    exact ⟨rfl, by omega⟩
  | succ fuel ih =>
    intro st hdedup stq hq hstq
    obtain ⟨hBerr, hBinl, hBinr⟩ :=
      loopBody_spec env maxRounds topK question intentKeywords st hdedup
    cases hlb : loopBody env maxRounds topK question intentKeywords st with
    | error p =>
      rw [runLoop, hlb] at hq
      cases hq
    | ok s =>
      cases s with
      | inl st1 =>
        obtain ⟨hrel, -, hdisj⟩ := hBinl st1 hlb
        rw [runLoop, hlb] at hq
        cases hq
        rcases hdisj with ⟨-, heq⟩ | ⟨hne, -⟩
        · exact ⟨heq, by rw [hrel.rounds_eq]⟩
        · exact absurd hstq hne
      | inr st1 =>
        simp only [runLoop, hlb] at hq
        obtain ⟨hrel, hdedup1, hne, -, -⟩ := hBinr st1 hlb
        have hpre := (runLoop_spec env maxRounds topK question intentKeywords
          fuel st1 hdedup1).1.results_isPrefix
        rw [hq] at hpre
        simp only [stateOf] at hpre
        rw [hstq] at hpre
        exact absurd (List.prefix_nil.mp hpre) hne

/-! ## Event-stream vocabulary -/

/-- A terminal event: `done` or `error`. -/
def isTerminal (e : AgentStreamEvent) : Bool :=
  e.type == "done" || e.type == "error"

/-- How many terminal events a stream holds. -/
def terminalCount (l : List AgentStreamEvent) : Nat :=
  (l.filter isTerminal).length

def hasDone (l : List AgentStreamEvent) : Bool :=
  l.any (fun e => e.type == "done")

def hasError (l : List AgentStreamEvent) : Bool :=
  l.any (fun e => e.type == "error")

/-- The text payloads of the `content` events, in order. -/
def contentTexts (l : List AgentStreamEvent) : List String :=
  l.filterMap (fun e =>
    if e.type == "content" then
      match e.content with
      | .text s => some s
      | _ => none
    else none)

/-- The message history the request's session held before the exchange. -/
def sessionMessages : Option ChatHistory → List ChatMessage
  | none => []
  | some s => s.messages

theorem nonTerminalEvent_not_terminal {e : AgentStreamEvent}
    (h : nonTerminalEvent e = true) : isTerminal e = false := by
  simp only [nonTerminalEvent, Bool.or_eq_true, beq_iff_eq] at h
  rcases h with (h | h) | h <;> simp [isTerminal, h]

theorem nonTerminalEvent_not_content {e : AgentStreamEvent}
    (h : nonTerminalEvent e = true) : (e.type == "content") = false := by
  simp only [nonTerminalEvent, Bool.or_eq_true, beq_iff_eq] at h
  rcases h with (h | h) | h <;> simp [h]

theorem terminalCount_append (a b : List AgentStreamEvent) :
    terminalCount (a ++ b) = terminalCount a + terminalCount b := by
  simp [terminalCount, List.filter_append]

theorem terminalCount_eq_zero {l : List AgentStreamEvent}
    (h : l.all nonTerminalEvent = true) : terminalCount l = 0 := by
  simp only [terminalCount, List.length_eq_zero]
  rw [List.filter_eq_nil]
  intro e he
  have := nonTerminalEvent_not_terminal ((List.all_eq_true.mp h) e he)
  simp [this]

theorem contentTexts_append (a b : List AgentStreamEvent) :
    contentTexts (a ++ b) = contentTexts a ++ contentTexts b := by
  simp [contentTexts, List.filterMap_append]

theorem contentTexts_eq_nil {l : List AgentStreamEvent}
    (h : l.all nonTerminalEvent = true) : contentTexts l = [] := by
  simp only [contentTexts, List.filterMap_eq_nil]
  intro e he
  rw [nonTerminalEvent_not_content ((List.all_eq_true.mp h) e he)]
  simp

theorem contentTexts_map_content (texts : List String) :
    contentTexts (texts.map (fun c => AgentStreamEvent.mk "content" (.text c)))
      = texts := by
  induction texts with
  | nil => rfl
  | cons t rest ih => simp [contentTexts, List.filterMap_cons] at ih ⊢; exact ih

theorem hasDone_append (a b : List AgentStreamEvent) :
    hasDone (a ++ b) = (hasDone a || hasDone b) := by
  simp [hasDone, List.any_append]

theorem hasError_append (a b : List AgentStreamEvent) :
    hasError (a ++ b) = (hasError a || hasError b) := by
  simp [hasError, List.any_append]

theorem hasDone_eq_false {l : List AgentStreamEvent}
    (h : l.all nonTerminalEvent = true) : hasDone l = false := by
  simp only [hasDone, List.any_eq_false]
  intro e he
  have h2 := (List.all_eq_true.mp h) e he
  simp only [nonTerminalEvent, Bool.or_eq_true, beq_iff_eq] at h2
  rcases h2 with (h2 | h2) | h2 <;> simp [h2]

theorem hasError_eq_false {l : List AgentStreamEvent}
    (h : l.all nonTerminalEvent = true) : hasError l = false := by
  simp only [hasError, List.any_eq_false]
  intro e he
  have h2 := (List.all_eq_true.mp h) e he
  simp only [nonTerminalEvent, Bool.or_eq_true, beq_iff_eq] at h2
  rcases h2 with (h2 | h2) | h2 <;> simp [h2]

theorem all_not_terminal {l : List AgentStreamEvent}
    (h : l.all nonTerminalEvent = true) :
    l.all (fun e => !isTerminal e) = true := by
  rw [List.all_eq_true] at h ⊢
  intro e he
  simp [nonTerminalEvent_not_terminal (h e he)]

theorem contentEvents_not_terminal (texts : List String) :
    (texts.map (fun c => AgentStreamEvent.mk "content" (.text c))).all
      (fun e => !isTerminal e) = true := by
  rw [List.all_eq_true]
  intro e he
  simp only [List.mem_map] at he
  obtain ⟨t, -, rfl⟩ := he
  simp [isTerminal]

theorem hasDone_eq_false_of_not_terminal {l : List AgentStreamEvent}
    (h : l.all (fun e => !isTerminal e) = true) : hasDone l = false := by
  simp only [hasDone, List.any_eq_false]
  intro e he
  have h2 := (List.all_eq_true.mp h) e he
  simp only [isTerminal, Bool.not_eq_true', Bool.or_eq_false_iff] at h2
  simp [h2.1]

/-- The per-exchange call accounting every exit of `chat_stream` obeys. -/
def ChatCommon (env : Env) (cfg : Settings) (out : ChatOutcome) : Prop :=
  out.rounds ≤ cfg.agent_max_retrieval_rounds ∧
  out.searchedKeywords.length ≤ 3 * out.rounds ∧
  out.evalCalls ≤ out.rounds ∧
  ∀ k, k + 1 < out.evalCalls →
    ∃ ev, env.evalOutcome k = .ok ev ∧ ev.is_sufficient = false

/-- The shape of an errored exchange: some non-terminal events, then the
one error event; the session history untouched. -/
def ChatErrorShape (session : Option ChatHistory) (out : ChatOutcome) : Prop :=
  ∃ pre emsg, out.events = pre ++ [⟨"error", .text emsg⟩] ∧
    pre.all (fun e => !isTerminal e) = true ∧
    out.messages = sessionMessages session

/-- The shape of a completed exchange: non-content non-terminal events,
then one content event per synthesized text increment, then the sources
event over the first 5 accumulated fragments, then the done event; the
history committed with the user message and the concatenated answer. -/
def ChatDoneShape (question : String) (session : Option ChatHistory)
    (out : ChatOutcome) : Prop :=
  ∃ pre texts, out.events = pre
      ++ texts.map (fun c => AgentStreamEvent.mk "content" (.text c))
      ++ [⟨"sources", .sourceList ((out.evidence.take 5).map mkSourceItem)⟩,
          ⟨"done", .flag true⟩] ∧
    pre.all nonTerminalEvent = true ∧
    out.messages = commitMessages (sessionMessages session)
      ⟨"user", question⟩ ⟨"assistant", String.join texts⟩ ∧
    deduplicate_results out.evidence = out.evidence

theorem chat_stream_spec (env : Env) (cfg : Settings) (paper_id question : String)
    (session : Option ChatHistory) :
    ChatCommon env cfg (chat_stream env cfg paper_id question session) ∧
    (ChatErrorShape session (chat_stream env cfg paper_id question session) ∨
     ChatDoneShape question session (chat_stream env cfg paper_id question session)) := by
  cases session with
  | none =>
    refine ⟨⟨?_, ?_, ?_, ?_⟩, Or.inl ⟨[], "会话无效或论文不匹配", rfl, rfl, rfl⟩⟩
    · simp [chat_stream]
    · simp [chat_stream]
    · simp [chat_stream]
    · intro k hk
      simp only [chat_stream] at hk
      omega
  | some s =>
    by_cases hpid : s.paper_id = paper_id
    case neg =>
      have hred : chat_stream env cfg paper_id question (some s) =
          { events := [⟨"error", .text "会话无效或论文不匹配"⟩]
            messages := s.messages
            evidence := []
            searchedKeywords := []
            evalCalls := 0
            rounds := 0
            synthCalled := false } := by
        simp only [chat_stream]
        rw [if_pos hpid]
      rw [hred]
      exact ⟨⟨Nat.zero_le _, Nat.le_refl _, Nat.le_refl _,
          fun k hk => absurd hk (Nat.not_lt_zero (k + 1))⟩,
        Or.inl ⟨[], "会话无效或论文不匹配", rfl, rfl, rfl⟩⟩
    case pos =>
      cases hint : env.intentOutcome with
      | error e =>
        have hred : chat_stream env cfg paper_id question (some s) =
            { events := [⟨"thinking", .text "正在分析问题意图..."⟩]
                ++ [⟨"error", .text e⟩]
              messages := s.messages
              evidence := []
              searchedKeywords := []
              evalCalls := 0
              rounds := 0
              synthCalled := false } := by
          simp only [chat_stream]
          rw [if_neg (fun h => h hpid), hint]
        rw [hred]
        refine ⟨⟨Nat.zero_le _, Nat.le_refl _, Nat.le_refl _,
            fun k hk => absurd hk (Nat.not_lt_zero (k + 1))⟩,
          Or.inl ⟨[⟨"thinking", .text "正在分析问题意图..."⟩], e, rfl, ?_, rfl⟩⟩
        simp [isTerminal]
      | ok intent =>
        have hst0 : deduplicate_results
            (initialLoopState (intentEvents intent)).allResults =
            (initialLoopState (intentEvents intent)).allResults := rfl
        obtain ⟨rel, hokdedup⟩ := runLoop_spec env cfg.agent_max_retrieval_rounds
          cfg.top_k_retrieval question intent.keywords
          cfg.agent_max_retrieval_rounds (initialLoopState (intentEvents intent)) hst0
        cases hrl : runLoop env cfg.agent_max_retrieval_rounds cfg.top_k_retrieval
            question intent.keywords cfg.agent_max_retrieval_rounds
            (initialLoopState (intentEvents intent)) with
        | error p =>
          obtain ⟨stE, emsg⟩ := p
          rw [hrl] at rel
          simp only [stateOf] at rel
          obtain ⟨⟨extra, hevents, hextra⟩, -, -, hrle, -, hecr, hskr, hins⟩ := rel
          simp only [initialLoopState, List.length_nil] at hevents hrle hecr hskr hins
          have hb1 : stE.rounds ≤ cfg.agent_max_retrieval_rounds := by omega
          have hb2 : stE.searchedKeywords.length ≤ 3 * stE.rounds := by omega
          have hb3 : stE.evalCalls ≤ stE.rounds := by omega
          have hred : chat_stream env cfg paper_id question (some s) =
              { events := stE.events ++ [⟨"error", .text emsg⟩]
                messages := s.messages
                evidence := stE.allResults
                searchedKeywords := stE.searchedKeywords
                evalCalls := stE.evalCalls
                rounds := stE.rounds
                synthCalled := false } := by
            simp only [chat_stream]
            rw [if_neg (fun h => h hpid)]
            simp only [hint, hrl]
          rw [hred]
          refine ⟨⟨hb1, hb2, hb3, fun k hk => hins k (Nat.zero_le k) hk⟩,
            Or.inl ⟨stE.events, emsg, rfl, ?_, rfl⟩⟩
          rw [hevents, List.all_append, Bool.and_eq_true]
          exact ⟨by simp [intentEvents, isTerminal], all_not_terminal hextra⟩
        | ok stF =>
          rw [hrl] at rel
          simp only [stateOf] at rel
          obtain ⟨⟨extra, hevents, hextra⟩, -, -, hrle, -, hecr, hskr, hins⟩ := rel
          simp only [initialLoopState, List.length_nil] at hevents hrle hecr hskr hins
          have hb1 : stF.rounds ≤ cfg.agent_max_retrieval_rounds := by omega
          have hb2 : stF.searchedKeywords.length ≤ 3 * stF.rounds := by omega
          have hb3 : stF.evalCalls ≤ stF.rounds := by omega
          have hdedupF := hokdedup stF hrl
          have hpreall : (stF.events).all nonTerminalEvent = true := by
            rw [hevents, List.all_append, Bool.and_eq_true]
            exact ⟨by simp [intentEvents, nonTerminalEvent], hextra⟩
          have hred : chat_stream env cfg paper_id question (some s) =
              finishExchange env question s.messages stF := by
            simp only [chat_stream]
            rw [if_neg (fun h => h hpid)]
            simp only [hint, hrl]
          rw [hred]
          by_cases hemp : stF.allResults = []
          · have hfe : finishExchange env question s.messages stF =
                { events := stF.events ++ [⟨"content", .text cannedAnswer⟩]
                    ++ [⟨"sources", .sourceList ((stF.allResults.take 5).map mkSourceItem)⟩]
                    ++ [⟨"done", .flag true⟩]
                  messages := commitMessages s.messages ⟨"user", question⟩
                    ⟨"assistant", cannedAnswer⟩
                  evidence := stF.allResults
                  searchedKeywords := stF.searchedKeywords
                  evalCalls := stF.evalCalls
                  rounds := stF.rounds
                  synthCalled := false } := by
              simp only [finishExchange]
              rw [if_pos hemp]
            rw [hfe]
            refine ⟨⟨hb1, hb2, hb3, fun k hk => hins k (Nat.zero_le k) hk⟩,
              Or.inr ⟨stF.events, [cannedAnswer], ?_, hpreall, ?_, hdedupF⟩⟩
            · simp [List.append_assoc]
            · simp [String.join, sessionMessages]
          · cases hse : env.synthError with
            | some e =>
              have hfe : finishExchange env question s.messages stF =
                  { events := stF.events ++ env.synthChunks.map
                        (fun c => AgentStreamEvent.mk "content" (.text c))
                      ++ [⟨"error", .text e⟩]
                    messages := s.messages
                    evidence := stF.allResults
                    searchedKeywords := stF.searchedKeywords
                    evalCalls := stF.evalCalls
                    rounds := stF.rounds
                    synthCalled := true } := by
                simp only [finishExchange]
                rw [if_neg hemp, hse]
              rw [hfe]
              refine ⟨⟨hb1, hb2, hb3, fun k hk => hins k (Nat.zero_le k) hk⟩,
                Or.inl ⟨stF.events ++ env.synthChunks.map
                  (fun c => AgentStreamEvent.mk "content" (.text c)), e,
                  by rw [List.append_assoc], ?_, rfl⟩⟩
              rw [List.all_append, Bool.and_eq_true]
              exact ⟨all_not_terminal hpreall,
                contentEvents_not_terminal env.synthChunks⟩
            | none =>
              have hfe : finishExchange env question s.messages stF =
                  { events := stF.events ++ env.synthChunks.map
                        (fun c => AgentStreamEvent.mk "content" (.text c))
                      ++ [⟨"sources", .sourceList ((stF.allResults.take 5).map mkSourceItem)⟩]
                      ++ [⟨"done", .flag true⟩]
                    messages := commitMessages s.messages ⟨"user", question⟩
                      ⟨"assistant", String.join env.synthChunks⟩
                    evidence := stF.allResults
                    searchedKeywords := stF.searchedKeywords
                    evalCalls := stF.evalCalls
                    rounds := stF.rounds
                    synthCalled := true } := by
                simp only [finishExchange]
                rw [if_neg hemp, hse]
              rw [hfe]
              refine ⟨⟨hb1, hb2, hb3, fun k hk => hins k (Nat.zero_le k) hk⟩,
                Or.inr ⟨stF.events, env.synthChunks, ?_, hpreall, rfl, hdedupF⟩⟩
              simp [List.append_assoc]

/-! ## Commit lemmas -/

theorem commitMessages_length_le (ms : List ChatMessage) (u a : ChatMessage) :
    (commitMessages ms u a).length ≤ 20 := by
  unfold commitMessages
  by_cases h : (ms ++ [u, a]).length > 20
  · rw [if_pos h]
    rw [List.length_drop]
    omega
  · rw [if_neg h]
    omega

theorem commitMessages_suffix (ms : List ChatMessage) (u a : ChatMessage) :
    commitMessages ms u a <:+ ms ++ [u, a] := by
  unfold commitMessages
  by_cases h : (ms ++ [u, a]).length > 20
  · rw [if_pos h]
    exact List.drop_suffix _ _
  · rw [if_neg h]

theorem commitMessages_length (ms : List ChatMessage) (u a : ChatMessage) :
    (commitMessages ms u a).length = min (ms.length + 2) 20 := by
  unfold commitMessages
  by_cases h : (ms ++ [u, a]).length > 20
  · rw [if_pos h]
    rw [List.length_drop]
    simp only [List.length_append, List.length_cons, List.length_nil] at h ⊢
    omega
  · rw [if_neg h]
    simp only [List.length_append, List.length_cons, List.length_nil] at h ⊢
    omega

theorem commitMessages_ends (ms : List ChatMessage) (u a : ChatMessage) :
    ∃ base, commitMessages ms u a = base ++ [u, a] := by
  unfold commitMessages
  by_cases h : (ms ++ [u, a]).length > 20
  · rw [if_pos h]
    refine ⟨(ms).drop ((ms ++ [u, a]).length - 20), ?_⟩
    rw [List.drop_append_of_le_length]
    simp only [List.length_append, List.length_cons, List.length_nil] at h ⊢
    omega
  · rw [if_neg h]
    exact ⟨ms, rfl⟩

theorem commitMessages_getLast (ms : List ChatMessage) (u a : ChatMessage) :
    (commitMessages ms u a).getLast? = some a := by
  obtain ⟨base, hb⟩ := commitMessages_ends ms u a
  rw [hb]
  have : base ++ [u, a] = (base ++ [u]) ++ [a] := by simp
  rw [this]
  exact List.getLast?_concat _

theorem terminalCount_eq_zero_of_not_terminal {l : List AgentStreamEvent}
    (h : l.all (fun e => !isTerminal e) = true) : terminalCount l = 0 := by
  simp only [terminalCount, List.length_eq_zero]
  rw [List.filter_eq_nil]
  intro e he
  have h2 := (List.all_eq_true.mp h) e he
  simp only [Bool.not_eq_true'] at h2
  simp [h2]

theorem hasError_contentEvents (texts : List String) :
    hasError (texts.map (fun c => AgentStreamEvent.mk "content" (.text c)))
      = false := by
  simp only [hasError, List.any_eq_false]
  intro e he
  simp only [List.mem_map] at he
  obtain ⟨t, -, rfl⟩ := he
  simp

theorem hasDone_contentEvents (texts : List String) :
    hasDone (texts.map (fun c => AgentStreamEvent.mk "content" (.text c)))
      = false := by
  simp only [hasDone, List.any_eq_false]
  intro e he
  simp only [List.mem_map] at he
  obtain ⟨t, -, rfl⟩ := he
  simp

/-! ## Claim theorems -/

/-- C1: every exchange driven by `chat_stream` emits exactly one terminal
event (`done` xor `error`), and when the terminal event is an error the
session's message history is exactly what it was before the exchange —
no user or assistant message is committed. -/
theorem chat_stream_one_terminal_error_preserves_history (env : Env)
    (cfg : Settings) (paper_id question : String)
    (session : Option ChatHistory) :
    terminalCount (chat_stream env cfg paper_id question session).events = 1 ∧
    (hasError (chat_stream env cfg paper_id question session).events = true →
      (chat_stream env cfg paper_id question session).messages =
        sessionMessages session) := by
  obtain ⟨-, hshape⟩ := chat_stream_spec env cfg paper_id question session
  rcases hshape with ⟨pre, emsg, hev, hpre, hmsg⟩ | ⟨pre, texts, hev, hpre, hmsg, -⟩
  · constructor
    · rw [hev, terminalCount_append, terminalCount_eq_zero_of_not_terminal hpre]
      simp [terminalCount, isTerminal]
    · intro _
      exact hmsg
  · constructor
    · rw [hev, terminalCount_append, terminalCount_append,
        terminalCount_eq_zero_of_not_terminal (all_not_terminal hpre),
        terminalCount_eq_zero_of_not_terminal (contentEvents_not_terminal texts)]
      simp [terminalCount, isTerminal]
    · intro hcontra
      rw [hev, hasError_append, hasError_append,
        hasError_eq_false hpre, hasError_contentEvents] at hcontra
      simp only [Bool.false_or] at hcontra
      simp [hasError] at hcontra

/-- C2: when an exchange ends with a `done` event, the concatenation of the
`content` event payloads, in emission order, is exactly the content of the
assistant message the commit appended to the session history. -/
theorem chat_stream_content_concat (env : Env) (cfg : Settings)
    (paper_id question : String) (session : Option ChatHistory)
    (hdone : hasDone (chat_stream env cfg paper_id question session).events = true) :
    (chat_stream env cfg paper_id question session).messages.getLast? =
      some ⟨"assistant",
        String.join (contentTexts
          (chat_stream env cfg paper_id question session).events)⟩ := by
  obtain ⟨-, hshape⟩ := chat_stream_spec env cfg paper_id question session
  rcases hshape with ⟨pre, emsg, hev, hpre, hmsg⟩ | ⟨pre, texts, hev, hpre, hmsg, -⟩
  · exfalso
    rw [hev, hasDone_append, hasDone_eq_false_of_not_terminal hpre] at hdone
    simp [hasDone] at hdone
  · rw [hev, contentTexts_append, contentTexts_append,
      contentTexts_eq_nil hpre, contentTexts_map_content]
    have htail : contentTexts
        [(⟨"sources", .sourceList
            (((chat_stream env cfg paper_id question session).evidence.take 5).map
              mkSourceItem)⟩ : AgentStreamEvent),
         ⟨"done", .flag true⟩] = [] := rfl
    rw [htail, hmsg, commitMessages_getLast]
    simp

/-- Witness environment: a one-round sufficient exchange whose synthesis
streams two increments. -/
def wEnvDone : Env :=
  { sectionTitles := []
    intentOutcome := .ok ⟨.general, [], ["k1"], "r"⟩
    milvusSearch := fun _ => .ok [⟨some "c1", "text one", "sec", 5⟩]
    evalOutcome := fun _ => .ok ⟨true, none, [], "enough"⟩
    synthChunks := ["Hello ", "world"]
    synthError := none }

def wCfg : Settings := ⟨3, 5⟩

def wSession : ChatHistory := ⟨"p1", []⟩

theorem chat_stream_content_concat_witness :
    (chat_stream wEnvDone wCfg "p1" "q" (some wSession)).messages.getLast? =
      some ⟨"assistant",
        String.join (contentTexts
          (chat_stream wEnvDone wCfg "p1" "q" (some wSession)).events)⟩ :=
  chat_stream_content_concat wEnvDone wCfg "p1" "q" (some wSession) (by decide)

/-- C4: the retrieve/evaluate loop of an exchange runs at most
`settings.agent_max_retrieval_rounds` rounds, dispatches at most 3 keyword
searches per round (hence at most `3 * maxRounds` in total), and never
continues past a sufficient verdict: every evaluator call except possibly
the last returned an insufficient verdict. -/
theorem chat_stream_loop_bounds (env : Env) (cfg : Settings)
    (paper_id question : String) (session : Option ChatHistory) :
    (chat_stream env cfg paper_id question session).rounds ≤
      cfg.agent_max_retrieval_rounds ∧
    (chat_stream env cfg paper_id question session).searchedKeywords.length ≤
      3 * (chat_stream env cfg paper_id question session).rounds ∧
    (chat_stream env cfg paper_id question session).searchedKeywords.length ≤
      3 * cfg.agent_max_retrieval_rounds ∧
    (∀ (kws : List String) (st : LoopSt),
      (stateOf (searchRound env cfg.top_k_retrieval (kws.take 3) st)).searchedKeywords.length ≤
        st.searchedKeywords.length + 3) ∧
    (∀ k, k + 1 < (chat_stream env cfg paper_id question session).evalCalls →
      ∃ ev, env.evalOutcome k = .ok ev ∧ ev.is_sufficient = false) := by
  obtain ⟨⟨h1, h2, h3, h4⟩, -⟩ := chat_stream_spec env cfg paper_id question session
  refine ⟨h1, h2, ?_, ?_, h4⟩
  · calc (chat_stream env cfg paper_id question session).searchedKeywords.length
        ≤ 3 * (chat_stream env cfg paper_id question session).rounds := h2
      _ ≤ 3 * cfg.agent_max_retrieval_rounds := by omega
  · intro kws st
    obtain ⟨-, -, -, -, hsk, -⟩ :=
      searchRound_state env cfg.top_k_retrieval (kws.take 3) st
    have h3t := List.length_take_le 3 kws
    omega

/-- C6: after every commit the session history holds at most 20 messages;
the commit appends the user message then the assistant message (they are
the last two entries), keeps a suffix (the most recent messages, oldest
dropped first) of length exactly `min (|history| + 2) 20`; and every
`chat_stream` exchange that ends in `done` leaves the history within the
bound. -/
theorem commit_history_bound :
    (∀ (ms : List ChatMessage) (u a : ChatMessage),
      (commitMessages ms u a).length ≤ 20 ∧
      commitMessages ms u a <:+ ms ++ [u, a] ∧
      (commitMessages ms u a).length = min (ms.length + 2) 20 ∧
      ∃ base, commitMessages ms u a = base ++ [u, a]) ∧
    (∀ (env : Env) (cfg : Settings) (paper_id question : String)
       (session : Option ChatHistory),
      hasDone (chat_stream env cfg paper_id question session).events = true →
      (chat_stream env cfg paper_id question session).messages.length ≤ 20) := by
  constructor
  · intro ms u a
    exact ⟨commitMessages_length_le ms u a, commitMessages_suffix ms u a,
      commitMessages_length ms u a, commitMessages_ends ms u a⟩
  · intro env cfg paper_id question session hdone
    obtain ⟨-, hshape⟩ := chat_stream_spec env cfg paper_id question session
    rcases hshape with ⟨pre, emsg, hev, hpre, hmsg⟩ | ⟨pre, texts, hev, hpre, hmsg, -⟩
    · exfalso
      rw [hev, hasDone_append, hasDone_eq_false_of_not_terminal hpre] at hdone
      simp [hasDone] at hdone
    · rw [hmsg]
      exact commitMessages_length_le _ _ _

/-- C3: the accumulated evidence set never holds two entries with the same
fragment id, and the per-round merge only adds: the previous round's
deduplicated set is a prefix of (so never removed from, and no longer
than) the next round's, both at the `_deduplicate_results` level and
across any run of the retrieve/evaluate loop. -/
theorem evidence_monotone_nodup :
    (∀ xs ys : List SearchResult,
      deduplicate_results xs <+:
        deduplicate_results (deduplicate_results xs ++ ys) ∧
      (deduplicate_results xs).length ≤
        (deduplicate_results (deduplicate_results xs ++ ys)).length) ∧
    (∀ zs : List SearchResult, (chunkIds (deduplicate_results zs)).Nodup) ∧
    (∀ (env : Env) (maxRounds topK : Nat) (question : String)
       (intentKeywords : List String) (fuel : Nat) (st : LoopSt),
      deduplicate_results st.allResults = st.allResults →
      st.allResults <+:
        (stateOf (runLoop env maxRounds topK question intentKeywords fuel st)).allResults ∧
      (∀ stq, runLoop env maxRounds topK question intentKeywords fuel st = .ok stq →
        (chunkIds stq.allResults).Nodup)) := by
  refine ⟨?_, ?_, ?_⟩
  · intro xs ys
    have h := dedup_merge_prefix xs ys
    exact ⟨h, h.length_le⟩
  · intro zs
    exact (dedupGo_cleanFrom [] zs).2.1
  · intro env maxRounds topK question intentKeywords fuel st hdedup
    obtain ⟨rel, hok⟩ := runLoop_spec env maxRounds topK question intentKeywords fuel st hdedup
    refine ⟨rel.results_isPrefix, ?_⟩
    intro stq hq
    have h := hok stq hq
    rw [← h]
    exact (dedupGo_cleanFrom [] stq.allResults).2.1

/-- C7: when the intent classifier's model output fails to parse as JSON,
`IntentAnalyzer.analyze` returns (never raises) the fallback intent:
category `general`, no target sections, and the non-empty keyword list
holding exactly the first 50 characters of the question. -/
theorem analyze_parse_failure_default (jsonParse : String → Except Unit Json)
    (question llmResult : String)
    (hparse : jsonParse (cleanLLMResult llmResult) = .error ()) :
    analyze jsonParse question llmResult =
      .ok { category := .general, target_sections := [],
            keywords := [question.take 50],
            reasoning := "解析失败，使用默认设置" } ∧
    [question.take 50] ≠ ([] : List String) := by
  constructor
  · unfold analyze
    rw [hparse]
  · simp

theorem analyze_parse_failure_default_witness :
    analyze (fun _ => .error ()) "What is the main contribution?" "not json" =
      .ok { category := .general, target_sections := [],
            keywords := ["What is the main contribution?".take 50],
            reasoning := "解析失败，使用默认设置" } ∧
    ["What is the main contribution?".take 50] ≠ ([] : List String) :=
  analyze_parse_failure_default (fun _ => .error ())
    "What is the main contribution?" "not json" rfl

theorem except_bind_ok {α β : Type} {m : Except Unit α} {f : α → Except Unit β}
    {v : β} (h : (m >>= f) = .ok v) : ∃ x, m = .ok x ∧ f x = .ok v := by
  cases m with
  | error e => simp [Bind.bind, Except.bind] at h
  | ok x => exact ⟨x, rfl, by simpa [Bind.bind, Except.bind] using h⟩

/-- C8: the completeness evaluator fails open.  On a JSON parse failure it
returns the default verdict with `is_sufficient = true`; when the parsed
object merely lacks the `is_sufficient` field, any verdict it returns has
`is_sufficient = true`; and a sufficient verdict at evaluator call `k`
forces the retrieve/evaluate loop to stop that round — no exchange makes
more than `k + 1` evaluator calls. -/
theorem evaluate_fail_open_sufficient :
    (∀ (jsonParse : String → Except Unit Json) (question content llmResult : String),
      jsonParse (cleanLLMResult llmResult) = .error () →
      evaluate jsonParse question content llmResult =
        .ok { is_sufficient := true, missing_info := none,
              suggested_keywords := [], reasoning := "解析失败，默认信息充足" }) ∧
    (∀ (jsonParse : String → Except Unit Json) (question content llmResult : String)
       (fields : List (String × Json)) (v : CompletenessEvaluation),
      jsonParse (cleanLLMResult llmResult) = .ok (.obj fields) →
      jsonGet fields "is_sufficient" = none →
      evaluate jsonParse question content llmResult = .ok v →
      v.is_sufficient = true) ∧
    (∀ (env : Env) (cfg : Settings) (paper_id question : String)
       (session : Option ChatHistory) (k : Nat) (ev : CompletenessEvaluation),
      env.evalOutcome k = .ok ev → ev.is_sufficient = true →
      (chat_stream env cfg paper_id question session).evalCalls ≤ k + 1) := by
  refine ⟨?_, ?_, ?_⟩
  · intro jsonParse question content llmResult hp
    unfold evaluate
    rw [hp]
  · intro jsonParse question content llmResult fields v hp hget hv
    unfold evaluate at hv
    rw [hp] at hv
    simp only [hget] at hv
    obtain ⟨x, hx, hv2⟩ := except_bind_ok hv
    cases hx
    split at hv2
    all_goals obtain ⟨y, hy, hv2⟩ := except_bind_ok hv2
    all_goals try cases hy
    all_goals split at hv2
    all_goals obtain ⟨z, hz, hv2⟩ := except_bind_ok hv2
    all_goals try cases hz
    all_goals split at hv2
    all_goals obtain ⟨w, hw, hv2⟩ := except_bind_ok hv2
    all_goals try cases hw
    all_goals cases hv2
    all_goals rfl
  · intro env cfg paper_id question session k ev hev hsuf
    by_contra hcon
    obtain ⟨⟨-, -, -, h4⟩, -⟩ := chat_stream_spec env cfg paper_id question session
    obtain ⟨ev2, hev2, hins⟩ := h4 k (by omega)
    rw [hev] at hev2
    cases hev2
    rw [hsuf] at hins
    cases hins

/-- A fixed search oracle for exercising `search_multi_keywords` on
concrete keyword lists. -/
def cexSearchFn : String → List SearchResult := fun kw =>
  if kw = "alpha" then [⟨some "x", "tx", "sx", 1⟩]
  else if kw = "beta" then [⟨some "y", "ty", "sy", 5⟩]
  else if kw = "delta" then [⟨some "w", "tw", "sw", 2⟩]
  else []

/-- C9 counterexample: `search_multi_keywords` does not return the merged
results in first-occurrence encounter order — it re-sorts them by
descending score (keywords "alpha" then "beta": encounter order puts the
score-1 fragment first, the function returns the score-5 fragment first) —
and it does not cap the searches at 3 keywords: with a 4-keyword list the
4th keyword's search runs and its fragment reaches the output. -/
theorem search_multi_keywords_resorts_and_uncapped :
    search_multi_keywords cexSearchFn ["alpha", "beta"] ≠
      deduplicate_results ((["alpha", "beta"].map cexSearchFn).flatten) ∧
    (⟨some "w", "tw", "sw", 2⟩ : SearchResult) ∈
      search_multi_keywords cexSearchFn ["a1", "a2", "a3", "delta"] := by
  constructor
  · intro hcontra
    have hsorted := search_multi_keywords_sorted cexSearchFn ["alpha", "beta"]
    rw [hcontra] at hsorted
    have hd : deduplicate_results ((["alpha", "beta"].map cexSearchFn).flatten) =
        [⟨some "x", "tx", "sx", 1⟩, ⟨some "y", "ty", "sy", 5⟩] := by decide
    rw [hd] at hsorted
    have h5 := (List.pairwise_cons.mp hsorted).1 _ (List.mem_singleton.mpr rfl)
    norm_num at h5
  · unfold search_multi_keywords sortByScoreDesc
    refine (List.mergeSort_perm _ _).mem_iff.mpr ?_
    decide

/-- C9 amended: the per-round retrieval inside `chat_stream` dispatches at
most 3 keyword searches per round and merges by id keeping first
occurrences in encounter order without re-sorting (the loop-facts
conjunct), while the standalone `search_multi_keywords` issues one search
per keyword with no cap of 3, concatenates in keyword-priority order,
deduplicates by fragment id keeping the first occurrence, and then
re-sorts the merged results by descending relevance score. -/
theorem multi_keyword_search_behavior :
    (∀ (searchFn : String → List SearchResult) (keywords : List String),
      search_multi_keywords searchFn keywords =
        sortByScoreDesc (deduplicate_results ((keywords.map searchFn).flatten))) ∧
    (∀ (searchFn : String → List SearchResult) (keywords : List String),
      (search_multi_keywords searchFn keywords).Pairwise
        (fun a b => b.score ≤ a.score)) ∧
    (∀ (env : Env) (cfg : Settings) (paper_id question : String)
       (session : Option ChatHistory),
      (chat_stream env cfg paper_id question session).searchedKeywords.length ≤
        3 * (chat_stream env cfg paper_id question session).rounds) := by
  refine ⟨search_multi_keywords_eq_sorted_dedup, search_multi_keywords_sorted, ?_⟩
  intro env cfg paper_id question session
  exact (chat_stream_spec env cfg paper_id question session).1.2.1

/-- Python truthiness of a `sources` payload entry's `chunk_id`. -/
def truthySourceId (it : SourceItem) : Bool :=
  match it.chunk_id with
  | some s => s ≠ ""
  | none => false

theorem truthySourceId_mkSourceItem (r : SearchResult) :
    truthySourceId (mkSourceItem r) = truthyId r := rfl

/-- C10: `_deduplicate_results` keeps only entries whose `chunk_id` is
present and truthy — an entry with a missing, `None` or empty id is
dropped, so it never enters the loop's accumulated evidence set, and on
the `done` path the evidence and every entry of the `sources` payload
carry a present, non-empty fragment id. -/
theorem dedup_truthy_only :
    (∀ xs : List SearchResult, (deduplicate_results xs).all truthyId = true) ∧
    (∀ (xs : List SearchResult) (r : SearchResult),
      truthyId r = false → r ∉ deduplicate_results xs) ∧
    (∀ (env : Env) (maxRounds topK : Nat) (question : String)
       (intentKeywords : List String) (fuel : Nat) (st stq : LoopSt),
      deduplicate_results st.allResults = st.allResults →
      runLoop env maxRounds topK question intentKeywords fuel st = .ok stq →
      stq.allResults.all truthyId = true) ∧
    (∀ (env : Env) (cfg : Settings) (paper_id question : String)
       (session : Option ChatHistory),
      hasDone (chat_stream env cfg paper_id question session).events = true →
      (chat_stream env cfg paper_id question session).evidence.all truthyId = true ∧
      ∀ e ∈ (chat_stream env cfg paper_id question session).events,
        e.type = "sources" →
        e.content = .sourceList
          (((chat_stream env cfg paper_id question session).evidence.take 5).map
            mkSourceItem) ∧
        ((((chat_stream env cfg paper_id question session).evidence.take 5).map
            mkSourceItem).all truthySourceId) = true) := by
  have hall : ∀ xs : List SearchResult,
      (deduplicate_results xs).all truthyId = true := by
    intro xs
    rw [List.all_eq_true]
    intro r hr
    exact mem_dedupGo_truthy hr
  refine ⟨hall, ?_, ?_, ?_⟩
  · intro xs r hfalse hmem
    have := mem_dedupGo_truthy hmem
    rw [hfalse] at this
    cases this
  · intro env maxRounds topK question intentKeywords fuel st stq hdedup hq
    have h := (runLoop_spec env maxRounds topK question intentKeywords fuel st
      hdedup).2 stq hq
    rw [← h]
    exact hall _
  · intro env cfg paper_id question session hdone
    obtain ⟨-, hshape⟩ := chat_stream_spec env cfg paper_id question session
    rcases hshape with ⟨pre, emsg, hev, hpre, -⟩ | ⟨pre, texts, hev, hpre, -, hded⟩
    · exfalso
      rw [hev, hasDone_append, hasDone_eq_false_of_not_terminal hpre] at hdone
      simp [hasDone] at hdone
    · have hevall : (chat_stream env cfg paper_id question session).evidence.all
          truthyId = true := by
        rw [← hded]
        exact hall _
      refine ⟨hevall, ?_⟩
      intro e he htype
      have hpayload : ((((chat_stream env cfg paper_id question session).evidence.take
          5).map mkSourceItem).all truthySourceId) = true := by
        rw [List.all_eq_true]
        intro it hit
        simp only [List.mem_map] at hit
        obtain ⟨r, hr, rfl⟩ := hit
        rw [truthySourceId_mkSourceItem]
        exact (List.all_eq_true.mp hevall) r (List.mem_of_mem_take hr)
      rw [hev] at he
      rcases List.mem_append.mp he with he2 | he2
      · rcases List.mem_append.mp he2 with he3 | he3
        · exfalso
          have h2 := (List.all_eq_true.mp hpre) e he3
          simp only [nonTerminalEvent, Bool.or_eq_true, beq_iff_eq] at h2
          rcases h2 with (h2 | h2) | h2 <;> rw [h2] at htype <;> simp at htype
        · exfalso
          simp only [List.mem_map] at he3
          obtain ⟨t, -, rfl⟩ := he3
          simp at htype
      · rcases List.mem_cons.mp he2 with he3 | he3
        · subst he3
          exact ⟨rfl, hpayload⟩
        · rcases List.mem_cons.mp he3 with he4 | he4
          · subst he4
            simp at htype
          · cases he4

/-- C5: when the accumulated evidence set is empty after a round's
retrieval, the loop breaks with zero completeness-evaluation calls, the
synthesis path is the fixed canned not-found answer with no model call,
the sources event carries the empty list, and the exchange is still
committed to history and ends with `done`, not an error. -/
theorem chat_stream_empty_evidence (env : Env) (cfg : Settings)
    (paper_id question : String) (s : ChatHistory)
    (hpid : s.paper_id = paper_id)
    (hrun : ∃ intent, env.intentOutcome = .ok intent ∧
      ∃ stF, runLoop env cfg.agent_max_retrieval_rounds cfg.top_k_retrieval
          question intent.keywords cfg.agent_max_retrieval_rounds
          (initialLoopState (intentEvents intent)) = .ok stF ∧
        stF.allResults = []) :
    (chat_stream env cfg paper_id question (some s)).evalCalls = 0 ∧
    (chat_stream env cfg paper_id question (some s)).synthCalled = false ∧
    (⟨"content", .text cannedAnswer⟩ : AgentStreamEvent) ∈
      (chat_stream env cfg paper_id question (some s)).events ∧
    (⟨"sources", .sourceList ([] : List SourceItem)⟩ : AgentStreamEvent) ∈
      (chat_stream env cfg paper_id question (some s)).events ∧
    hasDone (chat_stream env cfg paper_id question (some s)).events = true ∧
    hasError (chat_stream env cfg paper_id question (some s)).events = false ∧
    (chat_stream env cfg paper_id question (some s)).messages =
      commitMessages s.messages ⟨"user", question⟩ ⟨"assistant", cannedAnswer⟩ := by
  obtain ⟨intent, hint, stF, hrl, hemp⟩ := hrun
  have hst0 : deduplicate_results
      (initialLoopState (intentEvents intent)).allResults =
      (initialLoopState (intentEvents intent)).allResults := rfl
  obtain ⟨rel, -⟩ := runLoop_spec env cfg.agent_max_retrieval_rounds
    cfg.top_k_retrieval question intent.keywords cfg.agent_max_retrieval_rounds
    (initialLoopState (intentEvents intent)) hst0
  rw [hrl] at rel
  simp only [stateOf] at rel
  obtain ⟨⟨extra, hevents, hextra⟩, -, -, -, -, -, -, -⟩ := rel
  simp only [initialLoopState] at hevents
  have hpreall : (stF.events).all nonTerminalEvent = true := by
    rw [hevents, List.all_append, Bool.and_eq_true]
    exact ⟨by simp [intentEvents, nonTerminalEvent], hextra⟩
  have hnoeval := runLoop_empty_no_eval env cfg.agent_max_retrieval_rounds
    cfg.top_k_retrieval question intent.keywords cfg.agent_max_retrieval_rounds
    (initialLoopState (intentEvents intent)) hst0 stF hrl hemp
  have hred : chat_stream env cfg paper_id question (some s) =
      finishExchange env question s.messages stF := by
    simp only [chat_stream]
    rw [if_neg (fun h => h hpid)]
    simp only [hint, hrl]
  have hfe : finishExchange env question s.messages stF =
      { events := stF.events ++ [⟨"content", .text cannedAnswer⟩]
          ++ [⟨"sources", .sourceList ((stF.allResults.take 5).map mkSourceItem)⟩]
          ++ [⟨"done", .flag true⟩]
        messages := commitMessages s.messages ⟨"user", question⟩
          ⟨"assistant", cannedAnswer⟩
        evidence := stF.allResults
        searchedKeywords := stF.searchedKeywords
        evalCalls := stF.evalCalls
        rounds := stF.rounds
        synthCalled := false } := by
    simp only [finishExchange]
    rw [if_pos hemp]
  rw [hred, hfe]
  refine ⟨hnoeval.1, rfl, ?_, ?_, ?_, ?_, rfl⟩
  · simp
  · rw [hemp]
    simp
  · rw [hasDone_append]
    simp [hasDone]
  · rw [hasError_append, hasError_append, hasError_append,
      hasError_eq_false hpreall]
    simp [hasError]

/-- Witness environment for the empty-evidence path: every similarity
search returns no fragments. -/
def wEnvEmpty : Env :=
  { sectionTitles := []
    intentOutcome := .ok ⟨.general, [], ["k1"], "r"⟩
    milvusSearch := fun _ => .ok []
    evalOutcome := fun _ => .error "never called"
    synthChunks := []
    synthError := some "never called" }

theorem chat_stream_empty_evidence_witness :
    (chat_stream wEnvEmpty wCfg "p1" "q" (some wSession)).evalCalls = 0 ∧
    (chat_stream wEnvEmpty wCfg "p1" "q" (some wSession)).synthCalled = false ∧
    (⟨"content", .text cannedAnswer⟩ : AgentStreamEvent) ∈
      (chat_stream wEnvEmpty wCfg "p1" "q" (some wSession)).events ∧
    (⟨"sources", .sourceList ([] : List SourceItem)⟩ : AgentStreamEvent) ∈
      (chat_stream wEnvEmpty wCfg "p1" "q" (some wSession)).events ∧
    hasDone (chat_stream wEnvEmpty wCfg "p1" "q" (some wSession)).events = true ∧
    hasError (chat_stream wEnvEmpty wCfg "p1" "q" (some wSession)).events = false ∧
    (chat_stream wEnvEmpty wCfg "p1" "q" (some wSession)).messages =
      commitMessages wSession.messages ⟨"user", "q"⟩ ⟨"assistant", cannedAnswer⟩ :=
  chat_stream_empty_evidence wEnvEmpty wCfg "p1" "q" wSession rfl
    ⟨⟨.general, [], ["k1"], "r"⟩, rfl, ⟨_, rfl, rfl⟩⟩
